import Mathlib

/-!
# In-memory book repository (`data/inmem_repository.go`)

A shallow embedding of `InMemBookRepository` and its operations, followed by
the properties of the repository that the specification states.

Modelling conventions.

* `uuid.UUID` is a 128-bit value of which the repository only uses equality
  and `String()`, which is injective; the map key `id.String()` is modelled by
  the id itself.
* `time.Now().UTC()` is an input of the operation that reads the clock.
* Go `int` is `Int`; products and sums that may leave the 64-bit range are
  wrapped with `wrapInt`.
* `map[string]*int` is an association list.  Every `CreateBook` call allocates
  a fresh `index` variable, so no two map entries share a pointer and an entry
  is modelled by the integer it points to.  All map operations below depend on
  the list only through its set of entries.
* A run-time panic (index or slice bounds out of range) is the result `none`.
* `*domain.Book` and `[]domain.Book` results are modelled by the value they
  denote when the call returns.
-/

namespace LibApi

/-- Identifier of a book (`uuid.UUID`). -/
abbrev UUID := Nat

/-- Clock reading (`time.Time`), as a point on a linear time line. -/
abbrev Time := Int

/-- Record `domain.Book`. -/
structure Book where
  ID : UUID
  Title : String
  Author : String
  Publisher : String
  CreatedDate : Time
  LastModifiedDate : Time
deriving DecidableEq, Repr

/-- Record `domain.Library`. -/
structure Library where
  Books : List Book
  Page : Int
  TotalBooks : Int
deriving DecidableEq, Repr

/-- Values of the `error` results of the repository: `nil` or `ErrDoesNotExist`. -/
inductive RepoError where
  | nil
  | ErrDoesNotExist
deriving DecidableEq, Repr

open RepoError

/-- Struct `InMemBookRepository`: the index and the books slice (the lock has
no content in a sequential run). -/
structure InMemBookRepository where
  index : List (UUID × Int)
  books : List Book
deriving DecidableEq, Repr

/-- Two's complement wrap-around of a 64-bit Go `int`. -/
def wrapInt (x : Int) : Int :=
  (x + 9223372036854775808) % 18446744073709551616 - 9223372036854775808

/-- Map read `m[k]`: the stored pointer, `none` for the nil pointer of an
absent key. -/
def mapGet : List (UUID × Int) → UUID → Option Int
  | [], _ => none
  | (k', v) :: rest, k => if k' = k then some v else mapGet rest k

/-- Builtin `delete(m, k)`. -/
def mapDelete (m : List (UUID × Int)) (k : UUID) : List (UUID × Int) :=
  m.filter (fun e => decide (e.1 ≠ k))

/-- Map write `m[k] = &v`: any previous entry of `k` is replaced. -/
def mapSet (m : List (UUID × Int)) (k : UUID) (v : Int) : List (UUID × Int) :=
  (k, v) :: mapDelete m k

/-- Builtin `copy(dst, src)`: the first `min (len dst) (len src)` elements of
`dst` are overwritten; the result is the new content of `dst`. -/
def goCopy (dst src : List Book) : List Book :=
  src.take (min dst.length src.length) ++ dst.drop (min dst.length src.length)

/-- Function `NewInMemBookRepository`. -/
def NewInMemBookRepository : InMemBookRepository :=
  { index := [], books := [] }

/-- Method `GetBooks`.  The slice expression `r.books[start:end]` panics unless
`0 ≤ start ≤ end ≤ cap`; `end` is at most `len(r.books)` after the clamp, so
the capacity plays no role. -/
def GetBooks (r : InMemBookRepository) (count page : Int) :
    Option (Library × RepoError) :=
  let start := wrapInt (count * page)
  let end0 := wrapInt (start + count)
  let end1 := if end0 > (r.books.length : Int) then (r.books.length : Int) else end0
  if 0 ≤ start ∧ start ≤ end1 then
    some ({ Books := (r.books.drop start.toNat).take (end1 - start).toNat,
            Page := page,
            TotalBooks := (r.books.length : Int) }, nil)
  else none

/-- Method `lookup`: `some none` is the result `(nil, nil)`, `some (some (i, b))`
the pointers to the index entry holding `i` and to `r.books[i]`, which holds
`b`; `none` is the panic of `r.books[*index]` out of range. -/
def lookup (r : InMemBookRepository) (id : UUID) : Option (Option (Int × Book)) :=
  match mapGet r.index id with
  | none => some none
  | some i =>
    if 0 ≤ i then
      match r.books[i.toNat]? with
      | some b => some (some (i, b))
      | none => none
    else none

/-- Method `GetBook`. -/
def GetBook (r : InMemBookRepository) (id : UUID) : Option (Option Book × RepoError) :=
  match lookup r id with
  | none => none
  | some none => some (none, ErrDoesNotExist)
  | some (some (_, book)) => some (some book, nil)

/-- Lines 50-52 of `CreateBook`, executed before the lock is taken: the
time stamps and the read of `len(r.books)`. -/
def CreateBook_read (r : InMemBookRepository) (book : Book) (now : Time) : Book × Int :=
  let book1 := { book with CreatedDate := now }
  let book2 := { book1 with LastModifiedDate := book1.CreatedDate }
  (book2, (r.books.length : Int))

/-- Lines 53-56 of `CreateBook`, executed while the lock is held. -/
def CreateBook_locked (r : InMemBookRepository) (book : Book) (index : Int) :
    InMemBookRepository :=
  { index := mapSet r.index book.ID index, books := r.books ++ [book] }

/-- Method `CreateBook`, run without interruption. -/
def CreateBook (r : InMemBookRepository) (book : Book) (now : Time) :
    InMemBookRepository × RepoError :=
  let p := CreateBook_read r book now
  (CreateBook_locked r p.1 p.2, nil)

/-- Method `UpdateBook`: the assignments through `currentBook` write
`r.books[*index]`. -/
def UpdateBook (r : InMemBookRepository) (book : Book) (now : Time) :
    Option (InMemBookRepository × RepoError) :=
  match lookup r book.ID with
  | none => none
  | some none => some (r, ErrDoesNotExist)
  | some (some (i, currentBook)) =>
    let updated : Book :=
      { currentBook with Title := book.Title, Author := book.Author,
                         Publisher := book.Publisher, LastModifiedDate := now }
    some ({ r with books := r.books.set i.toNat updated }, nil)

/-- Body of the loop `for _, v := range r.index` of `DeleteBook`, applied to
one entry; `i` is the position of the deleted record. -/
def reindex (i : Int) (e : UUID × Int) : UUID × Int :=
  if e.2 > i then (e.1, e.2 - 1) else e

/-- Method `DeleteBook`.  The guard is the bounds check of the slice
expressions `r.books[*index:]`, `r.books[*index+1:]` and
`r.books[:len(r.books)-1]`. -/
def DeleteBook (r : InMemBookRepository) (id : UUID) :
    Option (InMemBookRepository × RepoError) :=
  match lookup r id with
  | none => none
  | some none => some (r, ErrDoesNotExist)
  | some (some (i, _)) =>
    if 0 ≤ i ∧ i + 1 ≤ (r.books.length : Int) then
      let copied := goCopy (r.books.drop i.toNat) (r.books.drop (i + 1).toNat)
      let books1 := r.books.take i.toNat ++ copied
      let books2 := books1.take (r.books.length - 1)
      let index1 := mapDelete r.index id
      let index2 := index1.map (reindex i)
      some ({ index := index2, books := books2 }, nil)
    else none

/-! ## Invariants and runs -/

/-- Index/Collection consistency: for every position `i` of the books slice
the index maps `books[i].ID` to `i`, and every entry of the index is the
entry of the record at its position. -/
def Consistent (s : InMemBookRepository) : Prop :=
  (∀ i, (h : i < s.books.length) → mapGet s.index (s.books[i]).ID = some (i : Int)) ∧
  (∀ e ∈ s.index, 0 ≤ e.2 ∧ (s.books[e.2.toNat]?).map Book.ID = some e.1)

instance (s : InMemBookRepository) : Decidable (Consistent s) := by
  unfold Consistent; infer_instance

/-- Every position held in the index is within the books slice, and entries
of distinct ids hold distinct positions. -/
def IndexSafe (s : InMemBookRepository) : Prop :=
  (∀ e ∈ s.index, 0 ≤ e.2 ∧ e.2 < (s.books.length : Int)) ∧
  (∀ e1 ∈ s.index, ∀ e2 ∈ s.index, e1.1 ≠ e2.1 → e1.2 ≠ e2.2)

instance (s : InMemBookRepository) : Decidable (IndexSafe s) := by
  unfold IndexSafe; infer_instance

/-- One call of a mutating method of the repository. -/
inductive Op where
  | create (book : Book) (now : Time)
  | update (book : Book) (now : Time)
  | delete (id : UUID)
deriving DecidableEq, Repr

/-- State after one call; `none` if the call panics. -/
def step (r : InMemBookRepository) : Op → Option InMemBookRepository
  | .create book now => some (CreateBook r book now).1
  | .update book now => (UpdateBook r book now).map Prod.fst
  | .delete id => (DeleteBook r id).map Prod.fst

/-- State after a sequence of calls made one after the other. -/
def run (r : InMemBookRepository) : List Op → Option InMemBookRepository
  | [] => some r
  | op :: ops => (step r op).bind (fun r1 => run r1 ops)

/-- Ids of the `CreateBook` calls of a sequence, in call order. -/
def createIds : List Op → List UUID
  | [] => []
  | .create book _ :: ops => book.ID :: createIds ops
  | _ :: ops => createIds ops

/-- The record that `CreateBook book` stores when the clock reads `now`. -/
def stamped (book : Book) (now : Time) : Book :=
  { book with CreatedDate := now, LastModifiedDate := now }

/-- State after a sequence of `CreateBook` calls. -/
def createAll (r : InMemBookRepository) : List (Book × Time) → InMemBookRepository
  | [] => r
  | c :: cs => createAll (CreateBook r c.1 c.2).1 cs

/-- The id never occurs in a `CreateBook` call of the sequence. -/
def NeverCreated (ops : List Op) (id : UUID) : Prop :=
  id ∉ createIds ops

/-- The sequence holds a `DeleteBook id` call after which no `CreateBook` call
uses the id. -/
def DeletedNotRecreated (ops : List Op) (id : UUID) : Prop :=
  ∃ pre post, ops = pre ++ Op.delete id :: post ∧ id ∉ createIds post

/-! ## Sample records (those of `inmem_repository_test.go`, with fixed ids) -/

def DonQuixote : Book :=
  { ID := 1, Title := "Don Quixote", Author := "Miguel de Cervantes", Publisher := "",
    CreatedDate := 0, LastModifiedDate := 0 }

def WarAndPeace : Book :=
  { ID := 2, Title := "War and Peace", Author := "Leo Tolstoy",
    Publisher := "The Russian Messenger", CreatedDate := 0, LastModifiedDate := 0 }

def Catcher : Book :=
  { ID := 3, Title := "The Catcher in the Rye", Author := "J. D. Salinger",
    Publisher := "Little, Brown and Company", CreatedDate := 0, LastModifiedDate := 0 }

def Guide : Book :=
  { ID := 4, Title := "The Hitchhiker's Guide to the Galaxy", Author := "Douglas Adams",
    Publisher := "Pan Books", CreatedDate := 0, LastModifiedDate := 0 }

/-- Repository holding Don Quixote (created at time 5) and War and Peace
(created at time 6). -/
def twoBooks : InMemBookRepository :=
  { index := [(2, 1), (1, 0)],
    books := [stamped DonQuixote 5, stamped WarAndPeace 6] }

/-- Repository after `CreateBook` of the four sample records, in the order of
the test "Can get range of books", at clock readings 1 to 4. -/
def fourBooks : InMemBookRepository :=
  createAll NewInMemBookRepository
    [(DonQuixote, 1), (WarAndPeace, 2), (Catcher, 3), (Guide, 4)]

/-! ## Concurrent `CreateBook` calls

`CreateBook` reads `len(r.books)` on line 52 and takes `r.lock` on line 53, so
a call is two atomic actions: `CreateBook_read`, then `CreateBook_locked`. -/

/-- Progress of one goroutine that calls `CreateBook`: before line 50, after
line 52 with its local `book` and `index`, or returned. -/
inductive CreateCall where
  | pending (book : Book) (now : Time)
  | waiting (book : Book) (index : Int)
  | returned
deriving DecidableEq, Repr

/-- Next atomic action of a goroutine. -/
def advance (r : InMemBookRepository) : CreateCall → InMemBookRepository × CreateCall
  | .pending book now =>
    let p := CreateBook_read r book now
    (r, .waiting p.1 p.2)
  | .waiting book index => (CreateBook_locked r book index, .returned)
  | .returned => (r, .returned)

/-- Execution of the goroutines `calls` under a schedule: each entry names the
goroutine that performs its next atomic action. -/
def schedule (r : InMemBookRepository) (calls : List CreateCall) :
    List Nat → InMemBookRepository × List CreateCall
  | [] => (r, calls)
  | g :: gs =>
    match calls[g]? with
    | none => schedule r calls gs
    | some c => schedule (advance r c).1 (calls.set g (advance r c).2) gs

/-! ## The map operations -/

theorem mapGet_some_mem {m : List (UUID × Int)} {k : UUID} {v : Int}
    (h : mapGet m k = some v) : (k, v) ∈ m := by
  induction m with
  | nil => simp [mapGet] at h
  | cons e rest ih =>
    obtain ⟨k1, v1⟩ := e
    by_cases hk : k1 = k
    · simp [mapGet, hk] at h
      simp [hk, h]
    · simp [mapGet, hk] at h
      exact List.mem_cons_of_mem _ (ih h)

theorem mapGet_eq_none_iff {m : List (UUID × Int)} {k : UUID} :
    mapGet m k = none ↔ ∀ e ∈ m, e.1 ≠ k := by
  induction m with
  | nil => simp [mapGet]
  | cons e rest ih =>
    obtain ⟨k1, v1⟩ := e
    by_cases hk : k1 = k
    · simp [mapGet, hk]
    · simp [mapGet, hk, ih]

theorem mapGet_isSome_of_mem {m : List (UUID × Int)} {e : UUID × Int}
    (h : e ∈ m) : ∃ v, mapGet m e.1 = some v := by
  cases hg : mapGet m e.1 with
  | none => exact absurd rfl (mapGet_eq_none_iff.1 hg e h)
  | some v => exact ⟨v, rfl⟩

theorem mapGet_mapDelete (m : List (UUID × Int)) (k k1 : UUID) :
    mapGet (mapDelete m k) k1 = if k1 = k then none else mapGet m k1 := by
  induction m with
  | nil => simp [mapDelete, mapGet]
  | cons e rest ih =>
    obtain ⟨k2, v2⟩ := e
    unfold mapDelete at ih ⊢
    by_cases h2 : k2 = k
    · subst h2
      rw [List.filter_cons_of_neg (by simp), ih]
      by_cases h1 : k1 = k2
      · simp [h1]
      · have : ¬ k2 = k1 := fun h => h1 h.symm
        simp [h1, mapGet, this]
    · rw [List.filter_cons_of_pos (by simpa using h2)]
      simp only [mapGet, ih]
      by_cases h1 : k2 = k1
      · subst h1; simp [h2]
      · simp [h1]

theorem mapGet_mapSet (m : List (UUID × Int)) (k k1 : UUID) (v : Int) :
    mapGet (mapSet m k v) k1 = if k1 = k then some v else mapGet m k1 := by
  unfold mapSet
  by_cases h : k = k1
  · subst h; simp [mapGet]
  · have h1 : ¬ k1 = k := fun e => h e.symm
    simp [mapGet, h, h1, mapGet_mapDelete]

theorem mem_mapDelete {m : List (UUID × Int)} {k : UUID} {e : UUID × Int} :
    e ∈ mapDelete m k ↔ e ∈ m ∧ e.1 ≠ k := by
  simp [mapDelete, List.mem_filter]

theorem mem_mapSet {m : List (UUID × Int)} {k : UUID} {v : Int} {e : UUID × Int} :
    e ∈ mapSet m k v ↔ e = (k, v) ∨ (e ∈ m ∧ e.1 ≠ k) := by
  simp [mapSet, mem_mapDelete]

theorem reindex_fst (i : Int) (e : UUID × Int) : (reindex i e).1 = e.1 := by
  unfold reindex; split <;> rfl

theorem reindex_snd (i : Int) (e : UUID × Int) :
    (reindex i e).2 = if e.2 > i then e.2 - 1 else e.2 := by
  unfold reindex; split <;> rfl

theorem mapGet_map_reindex (m : List (UUID × Int)) (i : Int) (k : UUID) :
    mapGet (m.map (reindex i)) k =
      (mapGet m k).map (fun v => if v > i then v - 1 else v) := by
  induction m with
  | nil => simp [mapGet]
  | cons e rest ih =>
    obtain ⟨k1, v1⟩ := e
    have hr : reindex i (k1, v1) = (k1, if v1 > i then v1 - 1 else v1) := by
      unfold reindex; split <;> simp_all
    rw [List.map_cons, hr]
    by_cases hk : k1 = k
    · simp [mapGet, hk]
    · simp [mapGet, hk, ih]

/-! ## The slice operations of `DeleteBook` -/

theorem delete_slices (books : List Book) (i : Nat) (h : i + 1 ≤ books.length) :
    (books.take i ++ goCopy (books.drop i) (books.drop (i + 1))).take (books.length - 1)
      = books.eraseIdx i := by
  have hmin : min (books.length - i) (books.length - (i + 1)) = books.length - (i + 1) := by
    omega
  unfold goCopy
  simp only [List.length_drop, hmin]
  rw [List.eraseIdx_eq_take_drop_succ]
  have hl : (List.drop (i + 1) books).length = books.length - (i + 1) := by simp
  rw [List.take_of_length_le (by omega : (List.drop (i + 1) books).length ≤ books.length - (i + 1))]
  rw [← List.append_assoc]
  apply List.take_left'
  simp
  omega

/-! ## Results of the methods on a safe index -/

theorem consistent_get {s : InMemBookRepository} (hc : Consistent s) {i : Nat} {b : Book}
    (h : s.books[i]? = some b) : mapGet s.index b.ID = some (i : Int) := by
  obtain ⟨hi, hb⟩ := List.getElem?_eq_some.1 h
  rw [← hb]
  exact hc.1 i hi

theorem consistent_entry {s : InMemBookRepository} (hc : Consistent s) {k : UUID} {v : Int}
    (h : mapGet s.index k = some v) :
    0 ≤ v ∧ ∃ b, s.books[v.toNat]? = some b ∧ b.ID = k := by
  have h2 := hc.2 (k, v) (mapGet_some_mem h)
  refine ⟨h2.1, ?_⟩
  have h3 := h2.2
  simp only [Option.map_eq_some'] at h3
  exact h3

theorem Consistent.indexSafe {s : InMemBookRepository} (hc : Consistent s) : IndexSafe s := by
  constructor
  · intro e he
    have h2 := hc.2 e he
    refine ⟨h2.1, ?_⟩
    have h3 := h2.2
    simp only [Option.map_eq_some'] at h3
    obtain ⟨b, hb, _⟩ := h3
    have := (List.getElem?_eq_some.1 hb).1
    omega
  · intro e1 he1 e2 he2 hne heq
    have h1 := (hc.2 e1 he1).2
    have h2 := (hc.2 e2 he2).2
    rw [heq, h2] at h1
    exact hne (Option.some.inj h1).symm

theorem lookup_absent {s : InMemBookRepository} {id : UUID}
    (h : mapGet s.index id = none) : lookup s id = some none := by
  simp [lookup, h]

theorem lookup_present {s : InMemBookRepository} (hs : IndexSafe s) {id : UUID} {i : Int}
    (h : mapGet s.index id = some i) :
    0 ≤ i ∧ i < (s.books.length : Int) ∧
      ∃ b, s.books[i.toNat]? = some b ∧ lookup s id = some (some (i, b)) := by
  have hb := hs.1 (id, i) (mapGet_some_mem h)
  simp only at hb
  have hlt : i.toNat < s.books.length := by omega
  refine ⟨hb.1, hb.2, s.books[i.toNat], List.getElem?_eq_getElem hlt, ?_⟩
  simp [lookup, h, hb.1, List.getElem?_eq_getElem hlt]

theorem getBook_absent {s : InMemBookRepository} {id : UUID}
    (h : mapGet s.index id = none) : GetBook s id = some (none, ErrDoesNotExist) := by
  simp [GetBook, lookup_absent h]

theorem updateBook_absent {s : InMemBookRepository} {book : Book} (now : Time)
    (h : mapGet s.index book.ID = none) : UpdateBook s book now = some (s, ErrDoesNotExist) := by
  simp [UpdateBook, lookup_absent h]

theorem deleteBook_absent {s : InMemBookRepository} {id : UUID}
    (h : mapGet s.index id = none) : DeleteBook s id = some (s, ErrDoesNotExist) := by
  simp [DeleteBook, lookup_absent h]

theorem getBook_present {s : InMemBookRepository} (hs : IndexSafe s) {id : UUID} {i : Int}
    (h : mapGet s.index id = some i) :
    ∃ b, s.books[i.toNat]? = some b ∧ GetBook s id = some (some b, nil) := by
  obtain ⟨_, _, b, hb, hl⟩ := lookup_present hs h
  exact ⟨b, hb, by simp [GetBook, hl]⟩

theorem updateBook_present {s : InMemBookRepository} (hs : IndexSafe s) {book : Book}
    (now : Time) {i : Int} (h : mapGet s.index book.ID = some i) :
    ∃ b, s.books[i.toNat]? = some b ∧
      UpdateBook s book now =
        some ({ index := s.index,
                books := s.books.set i.toNat
                  { ID := b.ID, Title := book.Title, Author := book.Author,
                    Publisher := book.Publisher, CreatedDate := b.CreatedDate,
                    LastModifiedDate := now } }, nil) := by
  obtain ⟨_, _, b, hb, hl⟩ := lookup_present hs h
  exact ⟨b, hb, by simp [UpdateBook, hl]⟩

theorem deleteBook_present {s : InMemBookRepository} (hs : IndexSafe s) {id : UUID} {i : Int}
    (h : mapGet s.index id = some i) :
    DeleteBook s id =
      some ({ index := (mapDelete s.index id).map (reindex i),
              books := s.books.eraseIdx i.toNat }, nil) := by
  obtain ⟨h0, hlt, b, hb, hl⟩ := lookup_present hs h
  have hg : 0 ≤ i ∧ i + 1 ≤ (s.books.length : Int) := ⟨h0, by omega⟩
  have ht : (i + 1).toNat = i.toNat + 1 := by omega
  simp only [DeleteBook, hl, hg, and_self, if_true, ht]
  rw [delete_slices s.books i.toNat (by omega)]

/-! ## Preservation of `IndexSafe` -/

theorem indexSafe_new : IndexSafe NewInMemBookRepository := by
  simp [IndexSafe, NewInMemBookRepository]

theorem createBook_eq (s : InMemBookRepository) (book : Book) (now : Time) :
    CreateBook s book now =
      ({ index := mapSet s.index book.ID (s.books.length : Int),
         books := s.books ++ [stamped book now] }, nil) := by
  rfl

theorem indexSafe_create {s : InMemBookRepository} (hs : IndexSafe s) (book : Book)
    (now : Time) : IndexSafe (CreateBook s book now).1 := by
  rw [createBook_eq]
  constructor
  · intro e he
    simp only [List.length_append, List.length_singleton, Nat.cast_add, Nat.cast_one]
    rcases mem_mapSet.1 he with h | ⟨h, _⟩
    · subst h; simp only; omega
    · have := hs.1 e h; omega
  · intro e1 he1 e2 he2 hne
    rcases mem_mapSet.1 he1 with h1 | ⟨h1, k1⟩ <;> rcases mem_mapSet.1 he2 with h2 | ⟨h2, k2⟩
    · subst h1; subst h2; exact absurd rfl hne
    · subst h1; have := hs.1 e2 h2; simp only; omega
    · subst h2; have := hs.1 e1 h1; simp only; omega
    · exact hs.2 e1 h1 e2 h2 hne

theorem indexSafe_update {s s1 : InMemBookRepository} (hs : IndexSafe s) {book : Book}
    {now : Time} {err : RepoError} (h : UpdateBook s book now = some (s1, err)) :
    IndexSafe s1 := by
  cases hg : mapGet s.index book.ID with
  | none =>
    rw [updateBook_absent now hg] at h
    simp only [Option.some.injEq, Prod.mk.injEq] at h
    rw [← h.1]; exact hs
  | some i =>
    obtain ⟨b, _, hu⟩ := updateBook_present hs now hg
    rw [hu] at h
    simp only [Option.some.injEq, Prod.mk.injEq] at h
    rw [← h.1]
    constructor
    · intro e he
      have := hs.1 e he
      simpa using this
    · exact hs.2

theorem indexSafe_delete {s s1 : InMemBookRepository} (hs : IndexSafe s) {id : UUID}
    {err : RepoError} (h : DeleteBook s id = some (s1, err)) : IndexSafe s1 := by
  cases hg : mapGet s.index id with
  | none =>
    rw [deleteBook_absent hg] at h
    simp only [Option.some.injEq, Prod.mk.injEq] at h
    rw [← h.1]; exact hs
  | some i =>
    rw [deleteBook_present hs hg] at h
    simp only [Option.some.injEq, Prod.mk.injEq] at h
    rw [← h.1]
    have hi := hs.1 (id, i) (mapGet_some_mem hg)
    simp only at hi
    have hne : ∀ e ∈ s.index, e.1 ≠ id → e.2 ≠ i := fun e he hk =>
      hs.2 e he (id, i) (mapGet_some_mem hg) hk
    constructor
    · intro e he
      simp only [List.mem_map] at he
      obtain ⟨e0, he0, rfl⟩ := he
      obtain ⟨hm, hk⟩ := mem_mapDelete.1 he0
      have hb := hs.1 e0 hm
      have hx := hne e0 hm hk
      rw [reindex_snd]
      simp only [List.length_eraseIdx]
      have hlt : i.toNat < s.books.length := by omega
      simp only [hlt, if_true]
      split <;> omega
    · intro e1 he1 e2 he2 hk
      simp only [List.mem_map] at he1 he2
      obtain ⟨a1, ha1, rfl⟩ := he1
      obtain ⟨a2, ha2, rfl⟩ := he2
      obtain ⟨hm1, hk1⟩ := mem_mapDelete.1 ha1
      obtain ⟨hm2, hk2⟩ := mem_mapDelete.1 ha2
      rw [reindex_fst, reindex_fst] at hk
      have h12 := hs.2 a1 hm1 a2 hm2 hk
      have hx1 := hne a1 hm1 hk1
      have hx2 := hne a2 hm2 hk2
      rw [reindex_snd, reindex_snd]
      split <;> split <;> omega

theorem indexSafe_step {s : InMemBookRepository} (hs : IndexSafe s) (op : Op) :
    ∃ s1, step s op = some s1 ∧ IndexSafe s1 := by
  cases op with
  | create book now => exact ⟨_, rfl, indexSafe_create hs book now⟩
  | update book now =>
    cases hg : mapGet s.index book.ID with
    | none =>
      exact ⟨s, by simp [step, updateBook_absent now hg], hs⟩
    | some i =>
      obtain ⟨b, _, hu⟩ := updateBook_present hs now hg
      exact ⟨_, by simp only [step, hu, Option.map_some'], indexSafe_update hs hu⟩
  | delete id =>
    cases hg : mapGet s.index id with
    | none =>
      exact ⟨s, by simp [step, deleteBook_absent hg], hs⟩
    | some i =>
      have hd := deleteBook_present hs hg
      exact ⟨_, by simp only [step, hd, Option.map_some'], indexSafe_delete hs hd⟩

theorem indexSafe_run (ops : List Op) {s : InMemBookRepository} (hs : IndexSafe s) :
    ∃ s1, run s ops = some s1 ∧ IndexSafe s1 := by
  induction ops generalizing s with
  | nil => exact ⟨s, rfl, hs⟩
  | cons op ops ih =>
    obtain ⟨s1, h1, hs1⟩ := indexSafe_step hs op
    obtain ⟨s2, h2, hs2⟩ := ih hs1
    exact ⟨s2, by simp [run, h1, h2], hs2⟩

/-! ## Preservation of `Consistent` -/

theorem consistent_new : Consistent NewInMemBookRepository := by
  simp [Consistent, NewInMemBookRepository]

theorem consistent_of {s : InMemBookRepository}
    (h1 : ∀ (i : Nat) (b : Book), s.books[i]? = some b → mapGet s.index b.ID = some (i : Int))
    (h2 : ∀ e ∈ s.index, 0 ≤ e.2 ∧ ∃ b, s.books[e.2.toNat]? = some b ∧ b.ID = e.1) :
    Consistent s := by
  constructor
  · intro i hi
    exact h1 i _ (List.getElem?_eq_getElem hi)
  · intro e he
    obtain ⟨h0, b, hb, hk⟩ := h2 e he
    exact ⟨h0, by simp [hb, hk]⟩

theorem consistent_mem {s : InMemBookRepository} (hc : Consistent s) {e : UUID × Int}
    (he : e ∈ s.index) : 0 ≤ e.2 ∧ ∃ b, s.books[e.2.toNat]? = some b ∧ b.ID = e.1 := by
  have h2 := hc.2 e he
  refine ⟨h2.1, ?_⟩
  have h3 := h2.2
  simp only [Option.map_eq_some'] at h3
  exact h3

theorem consistent_create {s : InMemBookRepository} (hc : Consistent s) (book : Book)
    (now : Time) (hfresh : mapGet s.index book.ID = none) :
    Consistent (CreateBook s book now).1 := by
  rw [createBook_eq]
  apply consistent_of
  · intro i b hb
    simp only [List.getElem?_append] at hb
    rw [mapGet_mapSet]
    split at hb
    · have hg := consistent_get hc hb
      have : b.ID ≠ book.ID := by
        intro e; rw [e, hfresh] at hg; exact Option.noConfusion hg
      simp [this, hg]
    · rename_i hlt
      have hi : i - s.books.length = 0 := by
        by_contra hne
        have : ([stamped book now] : List Book)[i - s.books.length]? = none := by
          apply List.getElem?_eq_none; simp; omega
        rw [this] at hb; exact Option.noConfusion hb
      rw [hi] at hb
      simp only [List.getElem?_cons_zero, Option.some.injEq] at hb
      have hid : b.ID = book.ID := by rw [← hb]; rfl
      have hil : (i : Int) = (s.books.length : Int) := by omega
      simp [hid, hil]
  · intro e he
    rcases mem_mapSet.1 he with h | ⟨h, _⟩
    · subst h
      refine ⟨by simp, stamped book now, ?_, rfl⟩
      simp
    · obtain ⟨h0, b, hb, hk⟩ := consistent_mem hc h
      refine ⟨h0, b, ?_, hk⟩
      have hlt := (List.getElem?_eq_some.1 hb).1
      simp only [List.getElem?_append, hlt, if_true]
      exact hb

theorem consistent_update {s s1 : InMemBookRepository} (hc : Consistent s) {book : Book}
    {now : Time} {err : RepoError} (h : UpdateBook s book now = some (s1, err)) :
    Consistent s1 := by
  cases hg : mapGet s.index book.ID with
  | none =>
    rw [updateBook_absent now hg] at h
    simp only [Option.some.injEq, Prod.mk.injEq] at h
    rw [← h.1]; exact hc
  | some i =>
    obtain ⟨b, hb, hu⟩ := updateBook_present hc.indexSafe now hg
    rw [hu] at h
    simp only [Option.some.injEq, Prod.mk.injEq] at h
    rw [← h.1]
    have hlt := (List.getElem?_eq_some.1 hb).1
    apply consistent_of
    · intro j c hj
      simp only [List.getElem?_set, hlt, if_true] at hj
      split at hj
      · rename_i hij
        simp only [Option.some.injEq] at hj
        rw [← hj, ← hij]
        show mapGet s.index b.ID = _
        exact consistent_get hc hb
      · exact consistent_get hc hj
    · intro e he
      obtain ⟨h0, c, hcb, hk⟩ := consistent_mem hc he
      refine ⟨h0, ?_⟩
      simp only [List.getElem?_set, hlt, if_true]
      split
      · rename_i hij
        rw [← hij, hb] at hcb
        simp only [Option.some.injEq] at hcb
        exact ⟨_, rfl, by rw [← hk, ← hcb]⟩
      · exact ⟨c, hcb, hk⟩

theorem consistent_delete {s s1 : InMemBookRepository} (hc : Consistent s) {id : UUID}
    {err : RepoError} (h : DeleteBook s id = some (s1, err)) : Consistent s1 := by
  cases hg : mapGet s.index id with
  | none =>
    rw [deleteBook_absent hg] at h
    simp only [Option.some.injEq, Prod.mk.injEq] at h
    rw [← h.1]; exact hc
  | some i =>
    rw [deleteBook_present hc.indexSafe hg] at h
    simp only [Option.some.injEq, Prod.mk.injEq] at h
    rw [← h.1]
    obtain ⟨h0, d, hd, hdk⟩ := consistent_entry hc hg
    apply consistent_of
    · intro j b hb
      simp only [List.getElem?_eraseIdx] at hb
      rw [mapGet_map_reindex, mapGet_mapDelete]
      split at hb
      · have hgb := consistent_get hc hb
        have hne : b.ID ≠ id := by
          intro e; rw [e, hg] at hgb
          simp only [Option.some.injEq] at hgb; omega
        have : ¬ ((j : Int) > i) := by omega
        simp [hne, hgb, this]
      · have hgb := consistent_get hc hb
        have hne : b.ID ≠ id := by
          intro e; rw [e, hg] at hgb
          simp only [Option.some.injEq] at hgb; omega
        have : ((j + 1 : Nat) : Int) > i := by omega
        simp only [hne, if_false, hgb, Option.map_some', this, if_true]
        congr 1; omega
    · intro e he
      simp only [List.mem_map] at he
      obtain ⟨e0, he0, rfl⟩ := he
      obtain ⟨hm, hk⟩ := mem_mapDelete.1 he0
      obtain ⟨h00, c, hcb, hck⟩ := consistent_mem hc hm
      have hx : e0.2 ≠ i := by
        intro e
        rw [e, hd] at hcb
        simp only [Option.some.injEq] at hcb
        rw [← hcb] at hck
        exact hk (hck.symm.trans hdk)
      rw [reindex_snd, reindex_fst]
      simp only [List.getElem?_eraseIdx]
      by_cases hgt : e0.2 > i
      · simp only [hgt, if_true]
        refine ⟨by omega, c, ?_, hck⟩
        have h1 : ¬ ((e0.2 - 1).toNat < i.toNat) := by omega
        have h2 : (e0.2 - 1).toNat + 1 = e0.2.toNat := by omega
        simp only [h1, if_false, h2]
        exact hcb
      · simp only [hgt, if_false]
        refine ⟨h00, c, ?_, hck⟩
        have h1 : e0.2.toNat < i.toNat := by omega
        simp only [h1, if_true]
        exact hcb

/-! ## Runs -/

theorem updateBook_index {s s1 : InMemBookRepository} {book : Book} {now : Time}
    {err : RepoError} (h : UpdateBook s book now = some (s1, err)) : s1.index = s.index := by
  unfold UpdateBook at h
  split at h
  · exact Option.noConfusion h
  · simp only [Option.some.injEq, Prod.mk.injEq] at h
    rw [← h.1]
  · simp only [Option.some.injEq, Prod.mk.injEq] at h
    rw [← h.1]

theorem deleteBook_index {s s1 : InMemBookRepository} {id : UUID} {err : RepoError}
    (h : DeleteBook s id = some (s1, err)) :
    s1.index = s.index ∨ ∃ i, s1.index = (mapDelete s.index id).map (reindex i) := by
  unfold DeleteBook at h
  split at h
  · exact Option.noConfusion h
  · simp only [Option.some.injEq, Prod.mk.injEq] at h
    left; rw [← h.1]
  · rename_i i b hl
    split at h
    · simp only [Option.some.injEq, Prod.mk.injEq] at h
      right; exact ⟨i, by rw [← h.1]⟩
    · exact Option.noConfusion h

theorem step_result {s s1 : InMemBookRepository} {op : Op} (h : step s op = some s1) :
    match op with
    | .create book now => s1 = (CreateBook s book now).1
    | .update book now => ∃ err, UpdateBook s book now = some (s1, err)
    | .delete id => ∃ err, DeleteBook s id = some (s1, err) := by
  cases op with
  | create book now => simp only [step, Option.some.injEq] at h; exact h.symm
  | update book now =>
    simp only [step, Option.map_eq_some', Prod.exists, exists_and_right, exists_eq_right] at h
    exact h
  | delete id =>
    simp only [step, Option.map_eq_some', Prod.exists, exists_and_right, exists_eq_right] at h
    exact h

theorem step_keeps_absent {s s1 : InMemBookRepository} {op : Op} {id : UUID}
    (h : step s op = some s1) (hid : id ∉ createIds [op])
    (habs : mapGet s.index id = none) : mapGet s1.index id = none := by
  have hr := step_result h
  cases op with
  | create book now =>
    simp only at hr
    simp only [createIds, List.mem_singleton] at hid
    rw [hr, createBook_eq]
    simp only [mapGet_mapSet, hid, if_false]
    exact habs
  | update book now =>
    obtain ⟨err, hu⟩ := hr
    rw [updateBook_index hu]; exact habs
  | delete id1 =>
    obtain ⟨err, hd⟩ := hr
    rcases deleteBook_index hd with he | ⟨i, he⟩
    · rw [he]; exact habs
    · rw [he, mapGet_map_reindex, mapGet_mapDelete, habs]; simp

theorem step_delete_absent {s s1 : InMemBookRepository} {id : UUID}
    (h : step s (.delete id) = some s1) : mapGet s1.index id = none := by
  obtain ⟨err, hd⟩ := step_result h
  unfold DeleteBook at hd
  split at hd
  · exact Option.noConfusion hd
  · rename_i hl
    simp only [Option.some.injEq, Prod.mk.injEq] at hd
    rw [← hd.1]
    cases hg : mapGet s.index id with
    | none => rfl
    | some i =>
      simp only [lookup, hg] at hl
      split at hl
      · split at hl
        · simp at hl
        · exact Option.noConfusion hl
      · exact Option.noConfusion hl
  · split at hd
    · simp only [Option.some.injEq, Prod.mk.injEq] at hd
      rw [← hd.1]
      simp [mapGet_map_reindex, mapGet_mapDelete]
    · exact Option.noConfusion hd

theorem createIds_append (xs ys : List Op) :
    createIds (xs ++ ys) = createIds xs ++ createIds ys := by
  induction xs with
  | nil => rfl
  | cons op xs ih => cases op <;> simp [createIds, ih]

theorem run_append {s s2 : InMemBookRepository} {xs ys : List Op}
    (h : run s (xs ++ ys) = some s2) : ∃ s1, run s xs = some s1 ∧ run s1 ys = some s2 := by
  induction xs generalizing s with
  | nil => exact ⟨s, rfl, h⟩
  | cons op xs ih =>
    simp only [List.cons_append, run, Option.bind_eq_some] at h ⊢
    obtain ⟨r1, h1, h2⟩ := h
    obtain ⟨s1, h3, h4⟩ := ih h2
    exact ⟨s1, ⟨r1, h1, h3⟩, h4⟩

theorem run_keeps_absent {s s1 : InMemBookRepository} {ops : List Op} {id : UUID}
    (h : run s ops = some s1) (hid : id ∉ createIds ops)
    (habs : mapGet s.index id = none) : mapGet s1.index id = none := by
  induction ops generalizing s with
  | nil => simp only [run, Option.some.injEq] at h; rw [← h]; exact habs
  | cons op ops ih =>
    simp only [run, Option.bind_eq_some] at h
    obtain ⟨r1, h1, h2⟩ := h
    have hsplit : createIds (op :: ops) = createIds [op] ++ createIds ops :=
      createIds_append [op] ops
    rw [hsplit, List.mem_append, not_or] at hid
    exact ih h2 hid.2 (step_keeps_absent h1 hid.1 habs)

theorem reachable_indexSafe {s : InMemBookRepository} {ops : List Op}
    (h : run NewInMemBookRepository ops = some s) : IndexSafe s := by
  obtain ⟨s1, h1, hs1⟩ := indexSafe_run ops indexSafe_new
  rw [h] at h1
  rw [Option.some.inj h1]; exact hs1

theorem consistent_run {s s1 : InMemBookRepository} {ops : List Op} (hc : Consistent s)
    (hd : (createIds ops).Nodup) (hfresh : ∀ id ∈ createIds ops, mapGet s.index id = none)
    (h : run s ops = some s1) : Consistent s1 := by
  induction ops generalizing s with
  | nil => simp only [run, Option.some.injEq] at h; rw [← h]; exact hc
  | cons op ops ih =>
    simp only [run, Option.bind_eq_some] at h
    obtain ⟨r1, h1, h2⟩ := h
    have hsplit : createIds (op :: ops) = createIds [op] ++ createIds ops :=
      createIds_append [op] ops
    rw [hsplit] at hd hfresh
    have hdis := List.disjoint_of_nodup_append hd
    have hd2 := (List.nodup_append.1 hd).2.1
    have hc1 : Consistent r1 := by
      have hr := step_result h1
      cases op with
      | create book now =>
        simp only at hr
        rw [hr]
        exact consistent_create hc book now
          (hfresh book.ID (by simp [createIds]))
      | update book now =>
        obtain ⟨err, hu⟩ := hr
        exact consistent_update hc hu
      | delete id =>
        obtain ⟨err, hu⟩ := hr
        exact consistent_delete hc hu
    refine ih hc1 hd2 ?_ h2
    intro id hid
    exact step_keeps_absent h1 (fun hin => hdis hin hid)
      (hfresh id (List.mem_append_right _ hid))

theorem stored_iff {s : InMemBookRepository} (hc : Consistent s) (id : UUID) :
    id ∈ s.books.map Book.ID ↔ ∃ i, mapGet s.index id = some i := by
  constructor
  · intro h
    obtain ⟨b, hb, hid⟩ := List.mem_map.1 h
    obtain ⟨i, hi⟩ := List.getElem?_of_mem hb
    exact ⟨i, by rw [← hid]; exact consistent_get hc hi⟩
  · rintro ⟨i, hi⟩
    obtain ⟨_, b, hb, hk⟩ := consistent_entry hc hi
    exact List.mem_map.2 ⟨b, List.getElem?_mem hb, hk⟩

/-! ## Deleting and creating in consistent states -/

theorem eraseIdx_eq_filter (l : List Book) (p : Nat) (x : UUID) (b : Book)
    (hp : l[p]? = some b) (hb : b.ID = x)
    (huniq : ∀ (j : Nat) (c : Book), l[j]? = some c → c.ID = x → j = p) :
    l.eraseIdx p = l.filter (fun c => decide (c.ID ≠ x)) := by
  induction l generalizing p with
  | nil => simp at hp
  | cons a t ih =>
    cases p with
    | zero =>
      simp only [List.getElem?_cons_zero, Option.some.injEq] at hp
      subst hp
      have hrest : ∀ c ∈ t, decide (c.ID ≠ x) = true := by
        intro c hc
        obtain ⟨j, hj⟩ := List.getElem?_of_mem hc
        simp only [decide_eq_true_eq]
        intro hcx
        have := huniq (j + 1) c (by simpa using hj) hcx
        omega
      rw [List.filter_cons_of_neg (by simp [hb]), List.eraseIdx_cons_zero]
      exact (List.filter_eq_self.2 hrest).symm
    | succ q =>
      have ha : a.ID ≠ x := by
        intro hax
        have := huniq 0 a (by simp) hax
        omega
      rw [List.filter_cons_of_pos (by simpa using ha), List.eraseIdx_cons_succ]
      congr 1
      apply ih q (by simpa using hp)
      intro j c hj hcx
      have := huniq (j + 1) c (by simpa using hj) hcx
      omega

theorem getBook_consistent {s : InMemBookRepository} (hc : Consistent s) {i : Nat} {b : Book}
    (h : s.books[i]? = some b) : GetBook s b.ID = some (some b, nil) := by
  obtain ⟨c, hcb, hg⟩ := getBook_present hc.indexSafe (consistent_get hc h)
  simp only [Int.toNat_ofNat] at hcb
  rw [h] at hcb
  rw [hg, ← Option.some.inj hcb]

theorem getBooks_total {s : InMemBookRepository} {count page : Int} {L : Library}
    {err : RepoError} (h : GetBooks s count page = some (L, err)) :
    L.TotalBooks = (s.books.length : Int) ∧ L.Page = page ∧ err = nil := by
  unfold GetBooks at h
  simp only [Option.ite_none_right_eq_some, Option.some.injEq, Prod.mk.injEq] at h
  obtain ⟨_, h1, h2⟩ := h
  subst h1
  exact ⟨rfl, rfl, h2.symm⟩

theorem getBooks_first_page (s : InMemBookRepository) :
    ∃ L, GetBooks s 10 0 = some (L, nil) ∧ L.TotalBooks = (s.books.length : Int) := by
  have h0 : wrapInt (10 * 0) = 0 := by decide
  have h1 : wrapInt (0 + 10) = 10 := by decide
  unfold GetBooks
  simp only [h0, h1]
  have hle : (0 : Int) ≤ if (10 : Int) > (s.books.length : Int)
      then (s.books.length : Int) else 10 := by
    split <;> omega
  simp only [le_refl, hle, and_self, if_true]
  exact ⟨_, rfl, rfl⟩

theorem createAll_append (s : InMemBookRepository) (xs ys : List (Book × Time)) :
    createAll s (xs ++ ys) = createAll (createAll s xs) ys := by
  induction xs generalizing s with
  | nil => rfl
  | cons c xs ih => exact ih _

theorem createAll_books (s : InMemBookRepository) (cs : List (Book × Time)) :
    (createAll s cs).books = s.books ++ cs.map (fun c => stamped c.1 c.2) := by
  induction cs generalizing s with
  | nil => simp [createAll]
  | cons c cs ih =>
    simp only [createAll, ih, createBook_eq, List.map_cons, List.append_assoc,
      List.singleton_append]

theorem run_creates (s : InMemBookRepository) (cs : List (Book × Time)) :
    run s (cs.map (fun c => Op.create c.1 c.2)) = some (createAll s cs) := by
  induction cs generalizing s with
  | nil => rfl
  | cons c cs ih => simp only [List.map_cons, run, step, Option.some_bind, ih, createAll]

theorem createIds_creates (cs : List (Book × Time)) :
    createIds (cs.map (fun c => Op.create c.1 c.2)) = cs.map (fun c => c.1.ID) := by
  induction cs with
  | nil => rfl
  | cons c cs ih => simp only [List.map_cons, createIds, ih]

theorem createAll_consistent {cs : List (Book × Time)}
    (hd : (cs.map (fun c => c.1.ID)).Nodup) :
    Consistent (createAll NewInMemBookRepository cs) := by
  have hd1 : (createIds (cs.map (fun c => Op.create c.1 c.2))).Nodup := by
    rw [createIds_creates]; exact hd
  exact consistent_run consistent_new hd1 (fun _ _ => rfl) (run_creates _ cs)

/-! ## Further facts about `CreateBook` and `GetBooks` -/

/-- Every `CreateBook` call makes the books slice one longer. -/
theorem createBook_length (r : InMemBookRepository) (book : Book) (now : Time) :
    (CreateBook r book now).1.books.length = r.books.length + 1 := by
  simp [createBook_eq]

/-- Past the end of the books slice `GetBooks` panics whenever `start` and
`end` do not overflow. -/
theorem getBooks_beyond_end (s : InMemBookRepository) (count page : Int)
    (hc : 0 ≤ count) (hgt : (s.books.length : Int) < count * page)
    (hfit : count * page + count < 9223372036854775808) :
    GetBooks s count page = none := by
  unfold GetBooks
  generalize count * page = P at hgt hfit ⊢
  have hw1 : wrapInt P = P := by unfold wrapInt; omega
  have hw2 : wrapInt (P + count) = P + count := by unfold wrapInt; omega
  have h1 : P + count > (s.books.length : Int) := by omega
  have h2 : ¬ (0 ≤ P ∧ P ≤ (s.books.length : Int)) := by omega
  simp only [hw1, hw2, h1, if_true, h2, if_false]

/-! ## Properties of the repository -/

/-- C1. Index/Collection consistency is an invariant: the repository of
`NewInMemBookRepository` is consistent, and from a consistent state `UpdateBook`
of any book and `DeleteBook` of any id return and leave a consistent state, as
does `CreateBook` of a book whose id is not stored. -/
theorem consistent_invariant :
    Consistent NewInMemBookRepository ∧
    ∀ s : InMemBookRepository, Consistent s →
      (∀ book now, ∃ s1 err, UpdateBook s book now = some (s1, err) ∧ Consistent s1) ∧
      (∀ id, ∃ s1 err, DeleteBook s id = some (s1, err) ∧ Consistent s1) ∧
      (∀ book now, book.ID ∉ s.books.map Book.ID →
        Consistent (CreateBook s book now).1) := by
  refine ⟨consistent_new, fun s hc => ⟨?_, ?_, ?_⟩⟩
  · intro book now
    cases hg : mapGet s.index book.ID with
    | none => exact ⟨s, _, updateBook_absent now hg, hc⟩
    | some i =>
      obtain ⟨b, _, hu⟩ := updateBook_present hc.indexSafe now hg
      exact ⟨_, _, hu, consistent_update hc hu⟩
  · intro id
    cases hg : mapGet s.index id with
    | none => exact ⟨s, _, deleteBook_absent hg, hc⟩
    | some i =>
      have hd := deleteBook_present hc.indexSafe hg
      exact ⟨_, _, hd, consistent_delete hc hd⟩
  · intro book now hfresh
    apply consistent_create hc
    cases hg : mapGet s.index book.ID with
    | none => rfl
    | some i => exact absurd ((stored_iff hc book.ID).2 ⟨i, hg⟩) hfresh

/-- C1 at the repository of two books: it is consistent, and stays so after an
update, a delete and the creation of a third book. -/
theorem consistent_invariant_witness :
    Consistent twoBooks ∧ Catcher.ID ∉ twoBooks.books.map Book.ID ∧
    (∃ s1 err, UpdateBook twoBooks DonQuixote 9 = some (s1, err) ∧ Consistent s1) ∧
    (∃ s1 err, DeleteBook twoBooks 1 = some (s1, err) ∧ Consistent s1) ∧
    Consistent (CreateBook twoBooks Catcher 7).1 :=
  have hc : Consistent twoBooks := by decide
  have hf : Catcher.ID ∉ twoBooks.books.map Book.ID := by decide
  ⟨hc, hf, (consistent_invariant.2 twoBooks hc).1 DonQuixote 9,
    (consistent_invariant.2 twoBooks hc).2.1 1,
    (consistent_invariant.2 twoBooks hc).2.2 Catcher 7 hf⟩

/-- C10. After any sequence of `CreateBook`, `UpdateBook` and `DeleteBook` calls
on the new repository (ids may be reused) no call has panicked, every position
in the index is at least 0 and below the length of the books slice, entries of
distinct ids hold distinct positions, and `lookup`, `GetBook`, `UpdateBook` and
`DeleteBook` do not go out of range. -/
theorem index_positions_in_range (ops : List Op) :
    ∃ s, run NewInMemBookRepository ops = some s ∧
      (∀ e ∈ s.index, 0 ≤ e.2 ∧ e.2 < (s.books.length : Int)) ∧
      (∀ e1 ∈ s.index, ∀ e2 ∈ s.index, e1.1 ≠ e2.1 → e1.2 ≠ e2.2) ∧
      (∀ id, lookup s id ≠ none) ∧
      (∀ id, GetBook s id ≠ none) ∧
      (∀ book now, UpdateBook s book now ≠ none) ∧
      (∀ id, DeleteBook s id ≠ none) := by
  obtain ⟨s, hrun, hs⟩ := indexSafe_run ops indexSafe_new
  refine ⟨s, hrun, hs.1, hs.2, ?_, ?_, ?_, ?_⟩
  · intro id
    cases hg : mapGet s.index id with
    | none => simp [lookup_absent hg]
    | some i =>
      obtain ⟨_, _, b, _, hl⟩ := lookup_present hs hg
      simp [hl]
  · intro id
    cases hg : mapGet s.index id with
    | none => simp [getBook_absent hg]
    | some i =>
      obtain ⟨b, _, h⟩ := getBook_present hs hg
      simp [h]
  · intro book now
    cases hg : mapGet s.index book.ID with
    | none => simp [updateBook_absent now hg]
    | some i =>
      obtain ⟨b, _, h⟩ := updateBook_present hs now hg
      simp [h]
  · intro id
    cases hg : mapGet s.index id with
    | none => simp [deleteBook_absent hg]
    | some i => simp [deleteBook_present hs hg]

/-- C10 for a sequence that creates Don Quixote twice, then War and Peace, and
deletes Don Quixote. -/
theorem index_positions_in_range_witness :
    ∃ s, run NewInMemBookRepository
        [.create DonQuixote 1, .create DonQuixote 2, .create WarAndPeace 3, .delete 1]
          = some s ∧
      (∀ e ∈ s.index, 0 ≤ e.2 ∧ e.2 < (s.books.length : Int)) ∧
      (∀ e1 ∈ s.index, ∀ e2 ∈ s.index, e1.1 ≠ e2.1 → e1.2 ≠ e2.2) ∧
      (∀ id, lookup s id ≠ none) ∧
      (∀ id, GetBook s id ≠ none) ∧
      (∀ book now, UpdateBook s book now ≠ none) ∧
      (∀ id, DeleteBook s id ≠ none) :=
  index_positions_in_range
    [.create DonQuixote 1, .create DonQuixote 2, .create WarAndPeace 3, .delete 1]

/-- C7. In a state reached from the new repository, for an id that was never
created, or was deleted and not created again, `GetBook` returns
`(nil, ErrDoesNotExist)` and `UpdateBook` and `DeleteBook` return
`ErrDoesNotExist` with the repository (books and index) as it was; for an id
present in the index `GetBook`, `UpdateBook` and `DeleteBook` return a nil
error. -/
theorem absent_id_not_found (ops : List Op) (s : InMemBookRepository)
    (hrun : run NewInMemBookRepository ops = some s) (id : UUID) :
    ((NeverCreated ops id ∨ DeletedNotRecreated ops id) →
      GetBook s id = some (none, ErrDoesNotExist) ∧
      (∀ book now, book.ID = id → UpdateBook s book now = some (s, ErrDoesNotExist)) ∧
      DeleteBook s id = some (s, ErrDoesNotExist)) ∧
    ((∃ i, mapGet s.index id = some i) →
      (∃ b, GetBook s id = some (some b, nil)) ∧
      (∀ book now, book.ID = id → ∃ s1, UpdateBook s book now = some (s1, nil)) ∧
      (∃ s1, DeleteBook s id = some (s1, nil))) := by
  constructor
  · intro habs
    have hnone : mapGet s.index id = none := by
      rcases habs with hn | ⟨pre, post, hops, hpost⟩
      · exact run_keeps_absent hrun hn rfl
      · rw [hops] at hrun
        obtain ⟨s1, _, h2⟩ := run_append hrun
        simp only [run, Option.bind_eq_some] at h2
        obtain ⟨s2, hstep, hrest⟩ := h2
        exact run_keeps_absent hrest hpost (step_delete_absent hstep)
    refine ⟨getBook_absent hnone, ?_, deleteBook_absent hnone⟩
    intro book now hid
    subst hid
    exact updateBook_absent now hnone
  · rintro ⟨i, hi⟩
    have hs := reachable_indexSafe hrun
    refine ⟨?_, ?_, ?_⟩
    · obtain ⟨b, _, h⟩ := getBook_present hs hi
      exact ⟨b, h⟩
    · intro book now hid
      subst hid
      obtain ⟨b, _, h⟩ := updateBook_present hs now hi
      exact ⟨_, h⟩
    · exact ⟨_, deleteBook_present hs hi⟩

/-- C7 after creating Don Quixote and War and Peace and deleting Don Quixote:
id 1 was deleted, id 3 was never created, id 2 is in the index. -/
theorem absent_id_not_found_witness :
    run NewInMemBookRepository
        [.create DonQuixote 5, .create WarAndPeace 6, .delete 1]
      = some { index := [(2, 0)], books := [stamped WarAndPeace 6] } ∧
    DeletedNotRecreated [.create DonQuixote 5, .create WarAndPeace 6, .delete 1] 1 ∧
    NeverCreated [.create DonQuixote 5, .create WarAndPeace 6, .delete 1] 3 ∧
    GetBook { index := [(2, 0)], books := [stamped WarAndPeace 6] } 1
      = some (none, ErrDoesNotExist) ∧
    GetBook { index := [(2, 0)], books := [stamped WarAndPeace 6] } 3
      = some (none, ErrDoesNotExist) ∧
    (∃ b, GetBook { index := [(2, 0)], books := [stamped WarAndPeace 6] } 2
      = some (some b, nil)) :=
  have hrun : run NewInMemBookRepository
        [.create DonQuixote 5, .create WarAndPeace 6, .delete 1]
      = some { index := [(2, 0)], books := [stamped WarAndPeace 6] } := by decide
  have hdel : DeletedNotRecreated
      [.create DonQuixote 5, .create WarAndPeace 6, .delete 1] 1 :=
    ⟨[.create DonQuixote 5, .create WarAndPeace 6], [], rfl, by simp [createIds]⟩
  have hnever : NeverCreated
      [.create DonQuixote 5, .create WarAndPeace 6, .delete 1] 3 := by
    simp [NeverCreated, createIds, DonQuixote, WarAndPeace]
  ⟨hrun, hdel, hnever,
    ((absent_id_not_found _ _ hrun 1).1 (Or.inr hdel)).1,
    ((absent_id_not_found _ _ hrun 3).1 (Or.inl hnever)).1,
    ((absent_id_not_found _ _ hrun 2).2 ⟨0, by decide⟩).1⟩

/-- C6. From a consistent state, `UpdateBook u` for a stored id returns nil; the
record at the position `p` of that id gets the Title, Author and Publisher of
`u` and the clock reading as LastModifiedDate (not before the previous one if
the clock did not run backwards) and keeps its ID and CreatedDate; the index,
the length of the books slice and every other position are unchanged, and
`GetBook` returns the new record. -/
theorem update_stored_book (s : InMemBookRepository) (hc : Consistent s) (u : Book)
    (now : Time) (hstored : u.ID ∈ s.books.map Book.ID) :
    ∃ (p : Nat) (old : Book) (s1 : InMemBookRepository),
      s.books[p]? = some old ∧ old.ID = u.ID ∧
      UpdateBook s u now = some (s1, nil) ∧
      s1.books[p]? = some { ID := old.ID, Title := u.Title, Author := u.Author,
                            Publisher := u.Publisher, CreatedDate := old.CreatedDate,
                            LastModifiedDate := now } ∧
      GetBook s1 u.ID = some (s1.books[p]?, nil) ∧
      (old.LastModifiedDate ≤ now →
        ∀ b, s1.books[p]? = some b → old.LastModifiedDate ≤ b.LastModifiedDate) ∧
      (∀ j, j ≠ p → s1.books[j]? = s.books[j]?) ∧
      s1.books.length = s.books.length ∧
      s1.index = s.index := by
  obtain ⟨i, hi⟩ := (stored_iff hc u.ID).1 hstored
  obtain ⟨h0, old, hold, hid⟩ := consistent_entry hc hi
  obtain ⟨b, hb, hu⟩ := updateBook_present hc.indexSafe now hi
  rw [hold] at hb
  have hbo : old = b := Option.some.inj hb
  subst hbo
  have hlt := (List.getElem?_eq_some.1 hold).1
  have hc1 := consistent_update hc hu
  refine ⟨i.toNat, old, _, hold, hid, hu, ?_⟩
  show (s.books.set i.toNat _)[i.toNat]? = some _ ∧
    GetBook ⟨s.index, s.books.set i.toNat _⟩ u.ID =
      some ((s.books.set i.toNat _)[i.toNat]?, nil) ∧
    (old.LastModifiedDate ≤ now →
      ∀ b, (s.books.set i.toNat _)[i.toNat]? = some b →
        old.LastModifiedDate ≤ b.LastModifiedDate) ∧
    (∀ j, j ≠ i.toNat → (s.books.set i.toNat _)[j]? = s.books[j]?) ∧
    (s.books.set i.toNat _).length = s.books.length ∧ s.index = s.index
  have hnew : ∀ nb : Book, (s.books.set i.toNat nb)[i.toNat]? = some nb := by
    intro nb; simp [List.getElem?_set, hlt]
  refine ⟨hnew _, ?_, ?_, ?_, ?_, rfl⟩
  · obtain ⟨c, hcb, hg⟩ := getBook_present hc1.indexSafe hi
    rw [hg, ← hcb]
  · intro hle c hcb
    rw [hnew] at hcb
    rw [← Option.some.inj hcb]
    exact hle
  · intro j hj
    have : ¬ i.toNat = j := fun e => hj e.symm
    simp [List.getElem?_set, this]
  · simp

/-- C6 at the repository of two books: War and Peace gets a new title at time 9. -/
theorem update_stored_book_witness :
    Consistent twoBooks ∧
    ({ WarAndPeace with Title := "Voyna i mir" } : Book).ID ∈ twoBooks.books.map Book.ID ∧
    ∃ (p : Nat) (old : Book) (s1 : InMemBookRepository),
      twoBooks.books[p]? = some old ∧ old.ID = 2 ∧
      UpdateBook twoBooks { WarAndPeace with Title := "Voyna i mir" } 9 = some (s1, nil) ∧
      s1.books[p]? = some { ID := old.ID, Title := "Voyna i mir", Author := "Leo Tolstoy",
                            Publisher := "The Russian Messenger",
                            CreatedDate := old.CreatedDate, LastModifiedDate := 9 } ∧
      GetBook s1 2 = some (s1.books[p]?, nil) ∧
      (old.LastModifiedDate ≤ 9 →
        ∀ b, s1.books[p]? = some b → old.LastModifiedDate ≤ b.LastModifiedDate) ∧
      (∀ j, j ≠ p → s1.books[j]? = twoBooks.books[j]?) ∧
      s1.books.length = twoBooks.books.length ∧
      s1.index = twoBooks.index :=
  ⟨by decide, by decide,
    update_stored_book twoBooks (by decide) { WarAndPeace with Title := "Voyna i mir" } 9
      (by decide)⟩

/-- C2. In a state built from the new repository by calls whose `CreateBook`
ids are pairwise distinct, for a stored id `x`: `DeleteBook x` returns nil,
after it `GetBook x` returns `ErrDoesNotExist`, the books slice is the previous
one with the record of id `x` (at position `p`) erased, its length and the
`TotalBooks` of `GetBooks` are one less, and `GetBook y` of every other stored
id returns the record it returned before. -/
theorem delete_stored_book (ops : List Op) (s : InMemBookRepository)
    (hrun : run NewInMemBookRepository ops = some s) (hd : (createIds ops).Nodup)
    (x : UUID) (hx : x ∈ s.books.map Book.ID) :
    ∃ (p : Nat) (old : Book) (s1 : InMemBookRepository),
      s.books[p]? = some old ∧ old.ID = x ∧
      DeleteBook s x = some (s1, nil) ∧
      GetBook s1 x = some (none, ErrDoesNotExist) ∧
      s1.books = s.books.eraseIdx p ∧
      s1.books = s.books.filter (fun b => decide (b.ID ≠ x)) ∧
      s1.books.length + 1 = s.books.length ∧
      (∃ L L1, GetBooks s 10 0 = some (L, nil) ∧ GetBooks s1 10 0 = some (L1, nil) ∧
        L1.TotalBooks + 1 = L.TotalBooks) ∧
      (∀ count page L L1 e e1, GetBooks s count page = some (L, e) →
        GetBooks s1 count page = some (L1, e1) → L1.TotalBooks + 1 = L.TotalBooks) ∧
      (∀ y, y ≠ x → y ∈ s.books.map Book.ID →
        ∃ b, GetBook s y = some (some b, nil) ∧ GetBook s1 y = some (some b, nil)) := by
  have hc : Consistent s := consistent_run consistent_new hd (fun _ _ => rfl) hrun
  obtain ⟨i, hi⟩ := (stored_iff hc x).1 hx
  obtain ⟨h0, old, hold, hid⟩ := consistent_entry hc hi
  have hdel := deleteBook_present hc.indexSafe hi
  have hc1 := consistent_delete hc hdel
  have hlt := (List.getElem?_eq_some.1 hold).1
  have huniq : ∀ (j : Nat) (c : Book), s.books[j]? = some c → c.ID = x → j = i.toNat := by
    intro j c hj hcx
    have hg := consistent_get hc hj
    rw [hcx, hi] at hg
    simp only [Option.some.injEq] at hg
    omega
  have hlen : (s.books.eraseIdx i.toNat).length + 1 = s.books.length := by
    simp only [List.length_eraseIdx, hlt, if_true]; omega
  refine ⟨i.toNat, old, _, hold, hid, hdel, ?_, rfl,
    eraseIdx_eq_filter s.books i.toNat x old hold hid huniq, hlen, ?_, ?_, ?_⟩
  · apply getBook_absent
    simp [mapGet_map_reindex, mapGet_mapDelete]
  · obtain ⟨L, hL, hLt⟩ := getBooks_first_page s
    obtain ⟨L1, hL1, hL1t⟩ := getBooks_first_page
      ⟨(mapDelete s.index x).map (reindex i), s.books.eraseIdx i.toNat⟩
    refine ⟨L, L1, hL, hL1, ?_⟩
    rw [hLt, hL1t]
    simp only at hlen ⊢
    omega
  · intro count page L L1 e e1 hL hL1
    rw [(getBooks_total hL).1, (getBooks_total hL1).1]
    simp only at hlen ⊢
    omega
  · intro y hy hys
    obtain ⟨b, hb, hyb⟩ := List.mem_map.1 hys
    obtain ⟨j, hj⟩ := List.getElem?_of_mem hb
    have hjp : j ≠ i.toNat := fun e => hy (hyb.symm.trans (by
      rw [e, hold] at hj
      rw [← Option.some.inj hj]; exact hid))
    refine ⟨b, ?_, ?_⟩
    · rw [← hyb]; exact getBook_consistent hc hj
    · rw [← hyb]
      by_cases hlt2 : j < i.toNat
      · apply getBook_consistent hc1 (i := j)
        simp only [List.getElem?_eraseIdx, hlt2, if_true]
        exact hj
      · apply getBook_consistent hc1 (i := j - 1)
        have h1 : ¬ (j - 1 < i.toNat) := by omega
        have h2 : j - 1 + 1 = j := by omega
        simp only [List.getElem?_eraseIdx, h1, if_false, h2]
        exact hj

/-- C2 after creating Don Quixote and War and Peace: Don Quixote is deleted. -/
theorem delete_stored_book_witness :
    run NewInMemBookRepository [.create DonQuixote 5, .create WarAndPeace 6]
      = some twoBooks ∧
    (createIds [.create DonQuixote 5, .create WarAndPeace 6]).Nodup ∧
    (1 : UUID) ∈ twoBooks.books.map Book.ID ∧
    ∃ (p : Nat) (old : Book) (s1 : InMemBookRepository),
      twoBooks.books[p]? = some old ∧ old.ID = 1 ∧
      DeleteBook twoBooks 1 = some (s1, nil) ∧
      GetBook s1 1 = some (none, ErrDoesNotExist) ∧
      s1.books = twoBooks.books.eraseIdx p ∧
      s1.books = twoBooks.books.filter (fun b => decide (b.ID ≠ 1)) ∧
      s1.books.length + 1 = twoBooks.books.length ∧
      (∃ L L1, GetBooks twoBooks 10 0 = some (L, nil) ∧ GetBooks s1 10 0 = some (L1, nil) ∧
        L1.TotalBooks + 1 = L.TotalBooks) ∧
      (∀ count page L L1 e e1, GetBooks twoBooks count page = some (L, e) →
        GetBooks s1 count page = some (L1, e1) → L1.TotalBooks + 1 = L.TotalBooks) ∧
      (∀ y, y ≠ 1 → y ∈ twoBooks.books.map Book.ID →
        ∃ b, GetBook twoBooks y = some (some b, nil) ∧ GetBook s1 y = some (some b, nil)) :=
  ⟨by decide, by decide, by decide,
    delete_stored_book [.create DonQuixote 5, .create WarAndPeace 6] twoBooks
      (by decide) (by decide) 1 (by decide)⟩

/-- C3. For a sequence of `CreateBook` calls with pairwise distinct ids on the
new repository: every call returns nil and appends its record at the position
equal to the length of the books slice before the call, where the index then
points; and in the final state `GetBook` of the id of every book of the
sequence returns nil error and a record with the ID, Title, Author and
Publisher of that book and both dates equal to the clock reading of its
creation. -/
theorem create_then_get (cs : List (Book × Time))
    (hd : (cs.map (fun c => c.1.ID)).Nodup) :
    (∀ pre c post, cs = pre ++ c :: post →
      CreateBook (createAll NewInMemBookRepository pre) c.1 c.2 =
        (createAll NewInMemBookRepository (pre ++ [c]), nil) ∧
      (createAll NewInMemBookRepository pre).books.length = pre.length ∧
      (createAll NewInMemBookRepository (pre ++ [c])).books =
        (createAll NewInMemBookRepository pre).books ++
          [{ ID := c.1.ID, Title := c.1.Title, Author := c.1.Author,
             Publisher := c.1.Publisher, CreatedDate := c.2, LastModifiedDate := c.2 }] ∧
      mapGet (createAll NewInMemBookRepository (pre ++ [c])).index c.1.ID =
        some (pre.length : Int)) ∧
    (createAll NewInMemBookRepository cs).books.length = cs.length ∧
    (∀ c ∈ cs, GetBook (createAll NewInMemBookRepository cs) c.1.ID =
      some (some { ID := c.1.ID, Title := c.1.Title, Author := c.1.Author,
                   Publisher := c.1.Publisher, CreatedDate := c.2,
                   LastModifiedDate := c.2 }, nil)) := by
  refine ⟨?_, ?_, ?_⟩
  · intro pre c post _
    have hstep : createAll NewInMemBookRepository (pre ++ [c]) =
        (CreateBook (createAll NewInMemBookRepository pre) c.1 c.2).1 := by
      rw [createAll_append]; rfl
    have hlen : (createAll NewInMemBookRepository pre).books.length = pre.length := by
      simp [createAll_books, NewInMemBookRepository]
    refine ⟨?_, hlen, ?_, ?_⟩
    · rw [hstep]; rfl
    · rw [hstep]; rfl
    · rw [hstep, createBook_eq]
      simp only [mapGet_mapSet, if_true, hlen]
  · simp [createAll_books, NewInMemBookRepository]
  · intro c hcs
    have hc := createAll_consistent hd
    obtain ⟨j, hj⟩ := List.getElem?_of_mem hcs
    have hb : (createAll NewInMemBookRepository cs).books[j]? = some (stamped c.1 c.2) := by
      simp [createAll_books, NewInMemBookRepository, hj]
    exact getBook_consistent hc hb

/-- C3 for the creation of Don Quixote at time 5 and War and Peace at time 6. -/
theorem create_then_get_witness :
    ([(DonQuixote, (5 : Time)), (WarAndPeace, (6 : Time))].map (fun c => c.1.ID)).Nodup ∧
    GetBook (createAll NewInMemBookRepository [(DonQuixote, 5), (WarAndPeace, 6)]) 2 =
      some (some { ID := 2, Title := "War and Peace", Author := "Leo Tolstoy",
                   Publisher := "The Russian Messenger", CreatedDate := 6,
                   LastModifiedDate := 6 }, nil) :=
  ⟨by decide,
    (create_then_get [(DonQuixote, 5), (WarAndPeace, 6)] (by decide)).2.2
      (WarAndPeace, 6) (by simp)⟩

/-- C5. For non-negative `count` and `page` with `count * page` at most the
number `n` of stored books, `GetBooks` returns a nil error, `Page = page`,
`TotalBooks = n` and as `Books` the records at positions `count * page` up to,
not including, `min (count * page + count) n`, in the order of the books slice
(`GetBooks` only reads the repository).  `count` is a Go `int`, and the books
slice is shorter than `2 ^ 62`, a record taking 112 bytes of memory.  Four books
with `GetBooks(2, 1)` give the third and fourth and `TotalBooks` 4; the new
repository with `GetBooks(10, 0)` gives no book and `TotalBooks` 0. -/
theorem getBooks_page :
    (∀ (s : InMemBookRepository) (count page : Int),
      0 ≤ count → count < 2 ^ 63 → 0 ≤ page →
      count * page ≤ (s.books.length : Int) → (s.books.length : Int) < 2 ^ 62 →
      GetBooks s count page =
        some ({ Books := (s.books.drop (count * page).toNat).take
                  ((min (count * page + count) (s.books.length : Int)).toNat
                    - (count * page).toNat),
                Page := page,
                TotalBooks := (s.books.length : Int) }, nil)) ∧
    GetBooks fourBooks 2 1 =
      some ({ Books := [stamped Catcher 3, stamped Guide 4], Page := 1, TotalBooks := 4 },
        nil) ∧
    GetBooks NewInMemBookRepository 10 0 =
      some ({ Books := [], Page := 0, TotalBooks := 0 }, nil) := by
  refine ⟨?_, by decide, by decide⟩
  intro s count page hc hcm hp hle hlen
  have h63 : (2 : Int) ^ 63 = 9223372036854775808 := by norm_num
  have h62 : (2 : Int) ^ 62 = 4611686018427387904 := by norm_num
  rw [h63] at hcm
  rw [h62] at hlen
  have hP0 : 0 ≤ count * page := Int.mul_nonneg hc hp
  have hPc : page = 0 ∨ count ≤ count * page := by
    by_cases h : page = 0
    · exact Or.inl h
    · right
      have h1 : (1 : Int) ≤ page := by omega
      calc count = count * 1 := (Int.mul_one count).symm
        _ ≤ count * page := Int.mul_le_mul_of_nonneg_left h1 hc
  have hP1 : page = 0 → count * page = 0 := by intro h; rw [h]; simp
  unfold GetBooks
  generalize count * page = P at hP0 hPc hP1 hle ⊢
  have hw1 : wrapInt P = P := by unfold wrapInt; omega
  have hw2 : wrapInt (P + count) = P + count := by
    unfold wrapInt
    rcases hPc with h | h
    · have := hP1 h; omega
    · omega
  simp only [hw1, hw2]
  by_cases hgt : P + count > (s.books.length : Int)
  · have hg : 0 ≤ P ∧ P ≤ (s.books.length : Int) := ⟨hP0, hle⟩
    have hm : min (P + count) (s.books.length : Int) = (s.books.length : Int) := by omega
    have ht : ((s.books.length : Int) - P).toNat = s.books.length - P.toNat := by omega
    simp only [hgt, if_true, hg, and_self, hm, ht, Int.toNat_ofNat]
  · have hg : 0 ≤ P ∧ P ≤ P + count := ⟨hP0, by omega⟩
    have hm : min (P + count) (s.books.length : Int) = P + count := by omega
    have ht : (P + count - P).toNat = (P + count).toNat - P.toNat := by omega
    simp only [hgt, if_false, hg, and_self, hm, ht, if_true]

/-- C5 at the repository of two books and `GetBooks(1, 1)`: the second book. -/
theorem getBooks_page_witness :
    (0 : Int) ≤ 1 ∧ (1 : Int) < 2 ^ 63 ∧ (1 : Int) * 1 ≤ (twoBooks.books.length : Int) ∧
    (twoBooks.books.length : Int) < 2 ^ 62 ∧
    GetBooks twoBooks 1 1 =
      some ({ Books := (twoBooks.books.drop ((1 : Int) * 1).toNat).take
                ((min ((1 : Int) * 1 + 1) (twoBooks.books.length : Int)).toNat
                  - ((1 : Int) * 1).toNat),
              Page := 1,
              TotalBooks := (twoBooks.books.length : Int) }, nil) :=
  ⟨by decide, by decide, by decide, by decide,
    getBooks_page.1 twoBooks 1 1 (by decide) (by decide) (by decide) (by decide)
      (by decide)⟩

/-- C4 fails on the code: with two stored books `GetBooks(10, 1)` has
`start = 10 > 2 = end`, and the slice expression `r.books[10:2]` panics; so
does `GetBooks(1, 1)` on the new repository.  With `start` equal to the number
of stored books the result is the empty page. -/
theorem getBooks_past_end_panics :
    GetBooks twoBooks 10 1 = none ∧
    GetBooks NewInMemBookRepository 1 1 = none ∧
    GetBooks twoBooks 2 1 = some ({ Books := [], Page := 1, TotalBooks := 2 }, nil) := by
  decide

/-- C8 fails on the code: `CreateBook` of Don Quixote twice leaves two records
of id 1 in the books slice, the first one without an index entry, and
`TotalBooks` 2. -/
theorem createBook_twice_duplicates :
    (CreateBook (CreateBook NewInMemBookRepository DonQuixote 5).1 DonQuixote 6).1 =
      { index := [(1, 1)], books := [stamped DonQuixote 5, stamped DonQuixote 6] } ∧
    (stamped DonQuixote 5).ID = (stamped DonQuixote 6).ID ∧
    GetBooks (CreateBook (CreateBook NewInMemBookRepository DonQuixote 5).1 DonQuixote 6).1
        10 0 =
      some ({ Books := [stamped DonQuixote 5, stamped DonQuixote 6], Page := 0,
              TotalBooks := 2 }, nil) := by
  decide

/-- C9 fails on the code: two goroutines create Don Quixote and War and Peace
on the new repository; both read `len(r.books) = 0` before either takes the
lock (schedule 0, 1, 0, 1).  Both ids are then indexed at position 0, and
`GetBook` of the id of War and Peace returns the record of Don Quixote.  Run
one call after the other (schedule 0, 0, 1, 1) the result is `twoBooks`, and a
goroutine that performs both its actions without interruption performs
`CreateBook`. -/
theorem concurrent_create_corrupts_index :
    schedule NewInMemBookRepository [.pending DonQuixote 5, .pending WarAndPeace 6]
        [0, 1, 0, 1] =
      ({ index := [(2, 0), (1, 0)],
         books := [stamped DonQuixote 5, stamped WarAndPeace 6] },
       [.returned, .returned]) ∧
    GetBook { index := [(2, 0), (1, 0)],
              books := [stamped DonQuixote 5, stamped WarAndPeace 6] } WarAndPeace.ID =
      some (some (stamped DonQuixote 5), nil) ∧
    ¬ Consistent { index := [(2, 0), (1, 0)],
                   books := [stamped DonQuixote 5, stamped WarAndPeace 6] } ∧
    schedule NewInMemBookRepository [.pending DonQuixote 5, .pending WarAndPeace 6]
        [0, 0, 1, 1] = (twoBooks, [.returned, .returned]) ∧
    (∀ r book now,
      advance (advance r (.pending book now)).1 (advance r (.pending book now)).2 =
        ((CreateBook r book now).1, .returned)) :=
  ⟨by decide, by decide, by decide, by decide, fun _ _ _ => rfl⟩

end LibApi
